import Mathlib

namespace Log

/-- Width in bytes of the relative-offset field of an index entry (index.go, offWidth). -/
def offWidth : Nat := 4

/-- Width in bytes of the store-position field of an index entry (index.go, posWidth). -/
def posWidth : Nat := 8

/-- Total width of an index entry, 12 bytes (index.go, entWidth = offWidth + posWidth). -/
def entWidth : Nat := offWidth + posWidth

/-- Modulus of Go uint32 values, equal to 2 to the 32. -/
def U32 : Nat := 4294967296

/-- Modulus of Go uint64 values, equal to 2 to the 64. -/
def U64 : Nat := 18446744073709551616

/-- Big-endian encoding of a natural number into w bytes, as binary.BigEndian.PutUint32
and PutUint64 write it (the value is truncated to the w low-order bytes). -/
def encBE : Nat → Nat → List Nat
  | 0, _ => []
  | w + 1, n => encBE w (n / 256) ++ [n % 256]

/-- Big-endian decoding of a byte list, as binary.BigEndian.Uint32 and Uint64 read it. -/
def decBE (bs : List Nat) : Nat := bs.foldl (fun a b => a * 256 + b) 0

/-- Modelled from the spec: the store type (store.go is not under src, only its callers are).
Attributes per spec section 3: the file bytes and the running byte-size counter. The buffered
writer is not observable through Append, Read and Close (Read flushes before reading), so the
model keeps committed bytes only. -/
structure store where
  file : List Nat
  size : Nat
deriving Repr, DecidableEq

/-- Modelled from the spec: store.Append (spec section 4.1) records the current end of file
as the position, writes an 8 byte big-endian length prefix then the payload, advances size by
8 + len, and returns (bytesWritten, position). Disk I/O never fails in the pure model, so the
result is always ok; the Except shape keeps the source's fallible signature for segment.Append. -/
def storeAppend (s : store) (p : List Nat) : Except String (store × Nat × Nat) :=
  .ok (⟨s.file ++ encBE 8 p.length ++ p, s.size + (8 + p.length)⟩, 8 + p.length, s.size)

/-- Modelled from the spec: store.Read (spec section 4.1) reads the 8 byte length prefix at
the position, then exactly that many payload bytes, failing with an I/O error when either
range would exceed the file's extent. -/
def storeRead (s : store) (pos : Nat) : Except String (List Nat) :=
  if s.file.length < pos + 8 then .error "EOF"
  else
    let len := decBE ((s.file.drop pos).take 8)
    if s.file.length < pos + 8 + len then .error "EOF"
    else .ok ((s.file.drop (pos + 8)).take len)

/-- Modelled from the spec: newStore opens the store over an existing file, the size counter
starting at the current file size. -/
def newStore (fileBytes : List Nat) : store := ⟨fileBytes, fileBytes.length⟩

/-- Memory-mapped index (index.go): the mapped byte region and the count of valid bytes. -/
structure index where
  mmap : List Nat
  size : Nat
deriving Repr, DecidableEq

/-- Construction of an index over an existing file (index.go, newIndex): size is the current
file size, then the file is truncated (zero-extended or cut) to maxIndexBytes and mapped whole. -/
def newIndex (fileBytes : List Nat) (maxIndexBytes : Nat) : index :=
  ⟨(fileBytes ++ List.replicate maxIndexBytes 0).take maxIndexBytes, fileBytes.length⟩

/-- Reinterpretation of a uint64 value as Go int64 (segment.Read casts off - baseOffset to
int64 before calling index.Read). -/
def toInt64 (n : Nat) : Int :=
  if n < 9223372036854775808 then (n : Int) else (n : Int) - 18446744073709551616

/-- Index read (index.go, Read): an empty index fails with end of data; entry number -1
selects size / entWidth - 1, computed in uint64 arithmetic and truncated to uint32; any other
argument is truncated to uint32; the read fails when the selected entry's byte range lies
beyond size; otherwise the stored relative offset and position are decoded from the map. -/
def indexRead (i : index) (inp : Int) : Except String (Nat × Nat) :=
  if i.size = 0 then .error "EOF"
  else
    let out : Nat :=
      if inp = -1 then (i.size / entWidth + U64 - 1) % U64 % U32
      else (inp % (4294967296 : Int)).toNat
    let bytePos := out * entWidth
    if i.size < bytePos + entWidth then .error "EOF"
    else .ok (decBE ((i.mmap.drop bytePos).take offWidth),
              decBE ((i.mmap.drop (bytePos + offWidth)).take posWidth))

/-- In-place write of bs into l starting at byte position p, as the two PutUint calls of
index.Write mutate the mapped region. -/
def writeBytes (l : List Nat) (p : Nat) (bs : List Nat) : List Nat :=
  l.take p ++ bs ++ l.drop (p + bs.length)

/-- Index write (index.go, Write): fails with end of data when 12 more bytes would pass the
end of the mapped region; otherwise encodes the offset at size and the position at size + 4,
and advances size by 12. -/
def indexWrite (i : index) (off pos : Nat) : Except String index :=
  if i.mmap.length < i.size + entWidth then .error "EOF"
  else .ok ⟨writeBytes i.mmap i.size (encBE 4 off ++ encBE 8 pos), i.size + entWidth⟩

/-- File truncation performed by index.Close: after the map is synced to the file, the file
is cut (or zero-extended) to exactly size bytes. -/
def indexClose (i : index) : List Nat := (i.mmap ++ List.replicate i.size 0).take i.size

/-- Modelled from the spec: the configuration surface consumed by this core (spec section 6),
maxStoreBytes and maxIndexBytes (config.go is not under src). -/
structure Config where
  maxStoreBytes : Nat
  maxIndexBytes : Nat
deriving Repr, DecidableEq

/-- Record (api/v1, outside src): an opaque byte payload Value plus the Offset field that
segment.Append stamps. -/
structure Record where
  value : List Nat
  offset : Nat
deriving Repr, DecidableEq

/-- On-disk state of one segment: the bytes of the baseOffset.store and baseOffset.index files. -/
structure Disk where
  storeFile : List Nat
  indexFile : List Nat
deriving Repr, DecidableEq

/-- Fresh directory state: both files are created empty. -/
def emptyDisk : Disk := ⟨[], []⟩

/-- Segment (segment.go): one store, one index, the offset range bounds and the configuration. -/
structure segment where
  store : store
  index : index
  baseOffset : Nat
  nextOffset : Nat
  config : Config
deriving Repr, DecidableEq

/-- Construction (segment.go, newSegment, data path): open or create both files, then derive
nextOffset from the index's last entry: baseOffset + off + 1 in uint64 arithmetic when the
read succeeds, baseOffset when it fails with end of data. -/
def newSegment (d : Disk) (baseOffset : Nat) (c : Config) : segment :=
  let st := newStore d.storeFile
  let idx := newIndex d.indexFile c.maxIndexBytes
  let next := match indexRead idx (-1) with
    | .error _ => baseOffset
    | .ok (off, _) => (baseOffset + off + 1) % U64
  ⟨st, idx, baseOffset, next, c⟩

/-- Append (segment.go, Append), parameterized by the external serializer (proto.Marshal):
stamp record.Offset with nextOffset, marshal the stamped record, append the bytes to the
store, write (uint32(nextOffset - baseOffset), pos) to the index, and only then advance
nextOffset; every failure path returns the error with nextOffset unchanged. The result is the
updated segment, the stamped record (the source mutates the caller's record in place), and
the assigned offset or the error. -/
def segmentAppend (marshal : Record → Except String (List Nat)) (s : segment) (r : Record) :
    segment × Record × Except String Nat :=
  let cur := s.nextOffset
  let record : Record := { r with offset := cur }
  match marshal record with
  | .error e => (s, record, .error e)
  | .ok p =>
    match storeAppend s.store p with
    | .error e => (s, record, .error e)
    | .ok (st, _, pos) =>
      match indexWrite s.index ((cur + U64 - s.baseOffset) % U64 % U32) pos with
      | .error e => ({ s with store := st }, record, .error e)
      | .ok idx =>
        ({ s with store := st, index := idx, nextOffset := (cur + 1) % U64 }, record, .ok cur)

/-- Read (segment.go, Read), parameterized by the external deserializer (proto.Unmarshal):
translate the absolute offset by uint64 subtraction of baseOffset, reinterpret it as int64
for index.Read, fetch the position, read the store bytes there, and decode them. -/
def segmentRead (unmarshal : List Nat → Except String Record) (s : segment) (off : Nat) :
    Except String Record :=
  match indexRead s.index (toInt64 ((off + U64 - s.baseOffset) % U64)) with
  | .error e => .error e
  | .ok (_, pos) =>
    match storeRead s.store pos with
    | .error e => .error e
    | .ok p => unmarshal p

/-- Size check (segment.go, IsMaxed): true once the store size has reached maxStoreBytes or
the index size has reached maxIndexBytes. -/
def segmentIsMaxed (s : segment) : Bool :=
  decide (s.store.size ≥ s.config.maxStoreBytes) || decide (s.index.size ≥ s.config.maxIndexBytes)

/-- Close (segment.go, Close, data part): index.Close syncs the map and truncates the index
file to its size; store.Close flushes and leaves the committed bytes. The resulting directory
state. -/
def segmentCloseDisk (s : segment) : Disk :=
  ⟨s.store.file, indexClose s.index⟩

/-- Helper (segment.go, nearestMultiple): j and k are uint64, so the test j >= 0 is always
true and the negative-dividend arm is dead; both arms are kept to mirror the source. -/
def nearestMultiple (j k : Nat) : Nat :=
  if 0 ≤ j then j / k * k else (j - k + 1) / k * k

/-- Modelled from the spec: the external serializer (spec section 6, collaborator contract;
proto.Marshal of google.golang.org/protobuf is outside the repository). The encoding is
deterministic and length-determinable: the 8 byte big-endian offset followed by the value
bytes; it never fails. -/
def protoMarshal (r : Record) : Except String (List Nat) :=
  .ok (encBE 8 r.offset ++ r.value)

/-- Modelled from the spec: the matching deserializer; it rejects byte sequences too short to
carry the offset field. -/
def protoUnmarshal (p : List Nat) : Except String Record :=
  if p.length < 8 then .error "unmarshal"
  else .ok ⟨p.drop 8, decBE (p.take 8)⟩

/-- Control-flow model of segment.Close (segment.go lines 120 to 128) with the two fallible
file closes injected as arguments: the index close runs first; on its error the function
returns at once, so the store close is never attempted. The boolean records whether the store
close was attempted. -/
def segmentCloseFlow (indexCloseRes storeCloseRes : Except String Unit) :
    Except String Unit × Bool :=
  match indexCloseRes with
  | .error e => (.error e, false)
  | .ok _ =>
    match storeCloseRes with
    | .error e => (.error e, true)
    | .ok _ => (.ok (), true)

/-- Control-flow model of newSegment (segment.go lines 22 to 62) with its four fallible steps
injected as booleans: os.OpenFile on the store file, newStore, os.OpenFile on the index file,
and newIndex (stat, truncate or mmap). The result is (construction succeeded, store file
handle open at return, index file handle open at return); the source has no close call on any
error path, so a handle once opened stays open. -/
def newSegmentResources (storeOpenOk newStoreOk indexOpenOk newIndexOk : Bool) :
    Bool × Bool × Bool :=
  if !storeOpenOk then (false, false, false)
  else if !newStoreOk then (false, true, false)
  else if !indexOpenOk then (false, true, false)
  else if !newIndexOk then (false, true, true)
  else (true, true, true)

/-- Sequential appends: the final segment state and the per-call results in order. -/
def appendAll (m : Record → Except String (List Nat)) (s : segment) :
    List Record → segment × List (Except String Nat)
  | [] => (s, [])
  | r :: rs =>
    let a := segmentAppend m s r
    let rest := appendAll m a.1 rs
    (rest.1, a.2.2 :: rest.2)

/-- Success test for one append result. -/
def resOk : Except String Nat → Bool
  | .ok _ => true
  | .error _ => false

/-- Frame written to the store for one payload: length prefix then bytes. -/
def frame (p : List Nat) : List Nat := encBE 8 p.length ++ p

/-- Store file bytes after a list of payload appends to a fresh store. -/
def frames (ps : List (List Nat)) : List Nat := (ps.map frame).flatten

/-- Index entries for consecutive payloads, the first at relative offset i with its frame at
store position pos. -/
def entriesFrom (i pos : Nat) : List (List Nat) → List Nat
  | [] => []
  | p :: ps => encBE 4 i ++ encBE 8 pos ++ entriesFrom (i + 1) (pos + (8 + p.length)) ps

/-- Index entries for a payload list appended to a fresh segment. -/
def entriesOf (ps : List (List Nat)) : List Nat := entriesFrom 0 0 ps

/-- Closed form of the index after the payloads ps were appended to a fresh segment whose
index capacity is maxIndexBytes. -/
def mkIndex (maxIndexBytes : Nat) (ps : List (List Nat)) : index :=
  ⟨entriesOf ps ++ List.replicate (maxIndexBytes - entWidth * ps.length) 0, entWidth * ps.length⟩

/-- Closed form of the whole segment state after the payloads ps were appended to a fresh
segment at baseOffset b. -/
def mkState (b : Nat) (c : Config) (ps : List (List Nat)) : segment :=
  ⟨⟨frames ps, (frames ps).length⟩, mkIndex c.maxIndexBytes ps, b, (b + ps.length) % U64, c⟩

/-- Payloads produced by protoMarshal for records stamped with consecutive offsets b + k,
b + k + 1, and so on. -/
def payloads (b k : Nat) : List Record → List (List Nat)
  | [] => []
  | r :: rs => (encBE 8 ((b + k) % U64) ++ r.value) :: payloads b (k + 1) rs

/-- Expected results of n successful appends starting at nextOffset b + k: the assigned
offsets are consecutive in uint64 arithmetic. -/
def okOffsets (b k : Nat) : Nat → List (Except String Nat)
  | 0 => []
  | n + 1 => .ok ((b + k) % U64) :: okOffsets b (k + 1) n

/-- Length of a big-endian encoding. -/
lemma encBE_length (w n : Nat) : (encBE w n).length = w := by
  induction w generalizing n with
  | zero => simp [encBE]
  | succ w ih => simp [encBE, ih]

/-- Decoding after appending one byte. -/
lemma decBE_append (bs : List Nat) (x : Nat) : decBE (bs ++ [x]) = decBE bs * 256 + x := by
  simp [decBE, List.foldl_append]

/-- Decoding inverts encoding up to truncation at the encoded width. -/
lemma decBE_encBE (w n : Nat) : decBE (encBE w n) = n % 256 ^ w := by
  induction w generalizing n with
  | zero => simp [encBE, decBE, Nat.mod_one]
  | succ w ih =>
    have h1 : n % 256 ^ (w + 1) % 256 = n % 256 :=
      Nat.mod_mod_of_dvd n (dvd_pow_self 256 (Nat.succ_ne_zero w))
    have h2 : n % 256 ^ (w + 1) / 256 = n / 256 % 256 ^ w := by
      rw [pow_succ, mul_comm]
      exact Nat.mod_mul_right_div_self n 256 (256 ^ w)
    have h3 := Nat.div_add_mod (n % 256 ^ (w + 1)) 256
    have h4 : n % 256 ^ (w + 1) < 256 ^ (w + 1) := Nat.mod_lt _ (Nat.pos_pow_of_pos _ (by omega))
    rw [encBE, decBE_append, ih]
    omega

/-- Encoding only depends on the value modulo the encoded width. -/
lemma encBE_mod (w n : Nat) : encBE w (n % 256 ^ w) = encBE w n := by
  induction w generalizing n with
  | zero => simp [encBE]
  | succ w ih =>
    have h1 : n % 256 ^ (w + 1) % 256 = n % 256 :=
      Nat.mod_mod_of_dvd n (dvd_pow_self 256 (Nat.succ_ne_zero w))
    have h2 : n % 256 ^ (w + 1) / 256 = n / 256 % 256 ^ w := by
      rw [pow_succ, mul_comm]
      exact Nat.mod_mul_right_div_self n 256 (256 ^ w)
    rw [encBE, encBE, h1, h2, ih]

/-- Four byte decoding of a four byte encoding truncates to uint32. -/
lemma decBE_encBE4 (n : Nat) : decBE (encBE 4 n) = n % U32 := by
  rw [decBE_encBE]; norm_num [U32]

/-- Eight byte decoding of an eight byte encoding truncates to uint64. -/
lemma decBE_encBE8 (n : Nat) : decBE (encBE 8 n) = n % U64 := by
  rw [decBE_encBE]; norm_num [U64]

/-- Four byte encodings agree modulo uint32. -/
lemma encBE4_mod (n : Nat) : encBE 4 (n % U32) = encBE 4 n := by
  have := encBE_mod 4 n
  norm_num [U32] at this ⊢
  exact this

/-- Eight byte encodings agree modulo uint64. -/
lemma encBE8_mod (n : Nat) : encBE 8 (n % U64) = encBE 8 n := by
  have := encBE_mod 8 n
  norm_num [U64] at this ⊢
  exact this

/-- The int64 reinterpretation of a uint64 value is -1 exactly on the all-ones value. -/
lemma toInt64_eq_neg_one (d : Nat) (hd : d < U64) : toInt64 d = -1 ↔ d = U64 - 1 := by
  simp only [toInt64, U64] at hd ⊢
  split <;> omega

/-- The uint32 truncation of the int64 reinterpretation agrees with truncation of the
uint64 value. -/
lemma toInt64_emod_U32 (d : Nat) :
    (toInt64 d % (4294967296 : Int)).toNat = d % U32 := by
  simp only [toInt64, U32]
  split <;> omega

/-- Go uint64 subtraction of the base from a value that is b + k modulo 2 to the 64 leaves
k modulo 2 to the 64. -/
lemma wrap_diff (b k : Nat) (hb : b < U64) : ((b + k) % U64 + U64 - b) % U64 = k % U64 := by
  simp only [U64] at hb ⊢
  omega

/-- Double truncation to uint64 then uint32 is truncation to uint32. -/
lemma mod_U64_mod_U32 (k : Nat) : k % U64 % U32 = k % U32 :=
  Nat.mod_mod_of_dvd k (by norm_num [U32, U64])

/-- Length of one store frame. -/
lemma frame_length (p : List Nat) : (frame p).length = 8 + p.length := by
  simp [frame, encBE_length]

/-- Store bytes of a cons of payloads. -/
lemma frames_cons (p : List Nat) (ps : List (List Nat)) :
    frames (p :: ps) = frame p ++ frames ps := by
  simp [frames]

/-- Store bytes of a concatenation of payload lists. -/
lemma frames_append (ps qs : List (List Nat)) :
    frames (ps ++ qs) = frames ps ++ frames qs := by
  simp [frames]

/-- Length of the store bytes of a cons. -/
lemma frames_length_cons (p : List Nat) (ps : List (List Nat)) :
    (frames (p :: ps)).length = (8 + p.length) + (frames ps).length := by
  simp [frames_cons, frame_length]

/-- Length of the index entries of a payload list. -/
lemma entriesFrom_length (ps : List (List Nat)) (i pos : Nat) :
    (entriesFrom i pos ps).length = entWidth * ps.length := by
  induction ps generalizing i pos with
  | nil => simp [entriesFrom]
  | cons p ps ih =>
    simp only [entriesFrom, List.length_append, encBE_length, ih, List.length_cons,
      entWidth, offWidth, posWidth]
    omega

/-- Entries of a concatenation: the second block starts at the shifted relative offset and at
the store position just past the first block's frames. -/
lemma entriesFrom_append (ps qs : List (List Nat)) (i pos : Nat) :
    entriesFrom i pos (ps ++ qs) =
      entriesFrom i pos ps ++ entriesFrom (i + ps.length) (pos + (frames ps).length) qs := by
  induction ps generalizing i pos with
  | nil => simp [entriesFrom, frames]
  | cons p ps ih =>
    have step1 : entriesFrom i pos ((p :: ps) ++ qs) =
        encBE 4 i ++ encBE 8 pos ++ entriesFrom (i + 1) (pos + (8 + p.length)) (ps ++ qs) := rfl
    have step2 : entriesFrom i pos (p :: ps) =
        encBE 4 i ++ encBE 8 pos ++ entriesFrom (i + 1) (pos + (8 + p.length)) ps := rfl
    rw [step1, step2, ih, frames_length_cons, List.length_cons]
    have h1 : i + 1 + ps.length = i + (ps.length + 1) := by omega
    have h2 : pos + (8 + p.length) + (frames ps).length =
        pos + (8 + p.length + (frames ps).length) := by omega
    rw [h1, h2]
    simp [List.append_assoc]

/-- Byte extraction of the j-th entry's relative offset and position fields. -/
lemma entriesFrom_extract (ps : List (List Nat)) (i pos j : Nat) (hj : j < ps.length) :
    ((entriesFrom i pos ps).drop (entWidth * j)).take offWidth = encBE 4 (i + j) ∧
    ((entriesFrom i pos ps).drop (entWidth * j + offWidth)).take posWidth =
      encBE 8 (pos + (frames (ps.take j)).length) := by
  induction j generalizing ps i pos with
  | zero =>
    cases ps with
    | nil => simp at hj
    | cons p tl =>
      constructor
      · rw [Nat.mul_zero, Nat.add_zero, List.drop_zero]
        simp only [entriesFrom]
        rw [List.take_append_of_le_length (by simp [encBE_length, offWidth])]
        simp [encBE_length, offWidth, List.take_of_length_le]
      · rw [Nat.mul_zero, Nat.zero_add]
        have step : entriesFrom i pos (p :: tl) =
            encBE 4 i ++ (encBE 8 pos ++ entriesFrom (i + 1) (pos + (8 + p.length)) tl) := by
          simp [entriesFrom]
        have h4 : offWidth = (encBE 4 i).length := by simp [encBE_length, offWidth]
        rw [step, h4, List.drop_left]
        rw [List.take_append_of_le_length (by simp [encBE_length, posWidth])]
        simp [encBE_length, posWidth, List.take_of_length_le, frames]
  | succ j ih =>
    cases ps with
    | nil => simp at hj
    | cons p tl =>
      have hlen : (encBE 4 i ++ encBE 8 pos).length = entWidth := by
        simp [encBE_length, entWidth, offWidth, posWidth]
      have hj' : j < tl.length := by simpa using hj
      have step : entriesFrom i pos (p :: tl) =
          (encBE 4 i ++ encBE 8 pos) ++ entriesFrom (i + 1) (pos + (8 + p.length)) tl := by
        simp [entriesFrom]
      have ihspec := ih tl (i + 1) (pos + (8 + p.length)) hj'
      constructor
      · have harith : entWidth * (j + 1) = (encBE 4 i ++ encBE 8 pos).length + entWidth * j := by
          rw [hlen]; ring
        rw [step, harith, List.drop_append, ihspec.1]
        have : i + 1 + j = i + (j + 1) := by omega
        rw [this]
      · have harith : entWidth * (j + 1) + offWidth =
            (encBE 4 i ++ encBE 8 pos).length + (entWidth * j + offWidth) := by
          rw [hlen]; ring
        rw [step, harith, List.drop_append, ihspec.2]
        have : pos + (8 + p.length) + (frames (tl.take j)).length =
            pos + (frames ((p :: tl).take (j + 1))).length := by
          simp only [List.take_succ_cons, frames_length_cons]
          omega
        rw [this]

/-- Reading the closed-form store at the j-th frame's position returns the j-th payload. -/
lemma storeRead_frames (ps : List (List Nat)) (j : Nat) (hj : j < ps.length)
    (hsz : (frames ps).length < U64) :
    storeRead ⟨frames ps, (frames ps).length⟩ (frames (ps.take j)).length =
      .ok (ps.getD j []) := by
  have hsplit : frames ps = frames (ps.take j) ++ (frame ps[j] ++ frames (ps.drop (j + 1))) := by
    conv_lhs => rw [← List.take_append_drop j ps]
    rw [List.drop_eq_getElem_cons hj, frames_append, frames_cons]
  set A := frames (ps.take j) with hA
  set B := frames (ps.drop (j + 1)) with hB
  have hdropA : (frames ps).drop A.length = frame ps[j] ++ B := by
    rw [hsplit, List.drop_left]
  have hflen : (frames ps).length = A.length + ((8 + ps[j].length) + B.length) := by
    rw [hsplit]; simp [frame_length]
  have hpj : ps[j].length < U64 := by omega
  have htake8 : ((frames ps).drop A.length).take 8 = encBE 8 ps[j].length := by
    rw [hdropA, frame]
    rw [List.append_assoc, List.take_append_of_le_length (by simp [encBE_length])]
    simp [encBE_length, List.take_of_length_le]
  have hdrop8 : (frames ps).drop (A.length + 8) = ps[j] ++ B := by
    rw [hsplit, frame, ← List.append_assoc, ← List.append_assoc]
    have h8 : A.length + 8 = (A ++ encBE 8 ps[j].length).length := by simp [encBE_length]
    rw [List.append_assoc (A ++ encBE 8 ps[j].length), h8, List.drop_left]
  simp only [storeRead]
  rw [if_neg (by omega), htake8, decBE_encBE8, Nat.mod_eq_of_lt hpj,
    if_neg (by omega), hdrop8]
  rw [List.take_append_of_le_length (by simp), List.take_of_length_le (by simp),
    List.getD_eq_getElem ps [] hj]

/-- The fresh segment over an empty directory is the closed form on no payloads. -/
lemma newSegment_empty (b : Nat) (c : Config) (hb : b < U64) :
    newSegment emptyDisk b c = mkState b c [] := by
  simp only [newSegment, emptyDisk, newStore, newIndex, mkState, mkIndex, entriesOf,
    entriesFrom, frames, List.map_nil, List.flatten_nil, List.length_nil, List.nil_append,
    indexRead]
  rw [List.take_replicate]
  simp [Nat.mod_eq_of_lt hb, entWidth, Nat.min_self]

/-- Numeric value of the entry width. -/
lemma entWidth_eq : entWidth = 12 := rfl

/-- Writing one entry into the closed-form index with room to spare. -/
lemma indexWrite_mkIndex (maxIdx : Nat) (ps : List (List Nat)) (off pos : Nat)
    (hcap : entWidth * (ps.length + 1) ≤ maxIdx) :
    indexWrite (mkIndex maxIdx ps) off pos =
      .ok ⟨entriesOf ps ++ ((encBE 4 off ++ encBE 8 pos) ++
             List.replicate (maxIdx - entWidth * (ps.length + 1)) 0),
           entWidth * ps.length + entWidth⟩ := by
  rw [entWidth_eq] at hcap
  have hElen : (entriesOf ps).length = 12 * ps.length := by
    rw [entriesOf, entriesFrom_length ps 0 0, entWidth_eq]
  have hbs : (encBE 4 off ++ encBE 8 pos).length = 12 := by simp [encBE_length]
  have hmlen : (mkIndex maxIdx ps).mmap.length = maxIdx := by
    simp only [mkIndex, List.length_append, hElen, List.length_replicate, entWidth_eq]
    omega
  have hsize : (mkIndex maxIdx ps).size = 12 * ps.length := by
    simp [mkIndex, entWidth_eq]
  have hguard : ¬ ((mkIndex maxIdx ps).mmap.length < (mkIndex maxIdx ps).size + entWidth) := by
    rw [hmlen, hsize, entWidth_eq]
    omega
  have htake : (mkIndex maxIdx ps).mmap.take (mkIndex maxIdx ps).size = entriesOf ps := by
    simp only [mkIndex, entWidth_eq]
    rw [← hElen, List.take_left]
  have hdrop : (mkIndex maxIdx ps).mmap.drop ((mkIndex maxIdx ps).size + 12) =
      List.replicate (maxIdx - 12 * (ps.length + 1)) 0 := by
    simp only [mkIndex, entWidth_eq]
    rw [← hElen, List.drop_append, List.drop_replicate]
    congr 1
    rw [hElen]
    omega
  simp only [indexWrite]
  rw [if_neg hguard]
  simp only [writeBytes, hbs, htake, hdrop]
  rw [hsize, entWidth_eq, List.append_assoc]

/-- The closed-form index on one more payload, unfolded at the write boundary. -/
lemma mkIndex_snoc (maxIdx : Nat) (ps : List (List Nat)) (p : List Nat) :
    mkIndex maxIdx (ps ++ [p]) =
      ⟨entriesOf ps ++ ((encBE 4 ps.length ++ encBE 8 (frames ps).length) ++
         List.replicate (maxIdx - entWidth * (ps.length + 1)) 0),
       entWidth * ps.length + entWidth⟩ := by
  have hE : entriesOf (ps ++ [p]) =
      entriesOf ps ++ (encBE 4 ps.length ++ encBE 8 (frames ps).length) := by
    simp only [entriesOf, entriesFrom_append, Nat.zero_add]
    simp [entriesFrom]
  simp only [mkIndex, hE, List.length_append, List.length_cons, List.length_nil,
    Nat.zero_add, Nat.mul_succ, List.append_assoc]

/-- One successful append advances the closed form by exactly one payload. -/
lemma segmentAppend_step (M : Record → Except String (List Nat)) (b : Nat) (c : Config)
    (ps : List (List Nat)) (r : Record) (p : List Nat) (hb : b < U64)
    (hcap : entWidth * (ps.length + 1) ≤ c.maxIndexBytes)
    (hM : M { r with offset := (b + ps.length) % U64 } = .ok p) :
    segmentAppend M (mkState b c ps) r =
      (mkState b c (ps ++ [p]), { r with offset := (b + ps.length) % U64 },
        .ok ((b + ps.length) % U64)) := by
  have hoff : ((b + ps.length) % U64 + U64 - b) % U64 % U32 = ps.length % U32 := by
    rw [wrap_diff b ps.length hb, mod_U64_mod_U32]
  have henc : encBE 4 (((b + ps.length) % U64 + U64 - b) % U64 % U32) = encBE 4 ps.length := by
    rw [hoff, encBE4_mod]
  have hiw := indexWrite_mkIndex c.maxIndexBytes ps
    (((b + ps.length) % U64 + U64 - b) % U64 % U32) (frames ps).length hcap
  rw [henc] at hiw
  have hstf : frames (ps ++ [p]) = frames ps ++ encBE 8 p.length ++ p := by
    simp [frames_append, frames_cons, frames, frame, List.append_assoc]
  have hstl : (frames (ps ++ [p])).length = (frames ps).length + (8 + p.length) := by
    rw [hstf]
    simp [encBE_length]
  have hnext : ((b + ps.length) % U64 + 1) % U64 = (b + (ps.length + 1)) % U64 := by
    simp only [U64]
    omega
  simp only [segmentAppend, mkState, hM, storeAppend, hiw, mkIndex_snoc, hstf, hstl, hnext,
    List.length_append, List.length_cons, List.length_nil, Nat.add_zero, Nat.zero_add,
    encBE_length, Nat.add_assoc]

/-- An append whose index write would pass the capacity fails with the end-of-space error
and changes neither nextOffset nor the index; the store has already received the frame. -/
lemma segmentAppend_full (M : Record → Except String (List Nat)) (b : Nat) (c : Config)
    (ps : List (List Nat)) (r : Record) (p : List Nat)
    (hM : M { r with offset := (b + ps.length) % U64 } = .ok p)
    (hps : entWidth * ps.length ≤ c.maxIndexBytes)
    (hcap : c.maxIndexBytes < entWidth * (ps.length + 1)) :
    segmentAppend M (mkState b c ps) r =
      ({ mkState b c ps with
           store := ⟨frames ps ++ encBE 8 p.length ++ p, (frames ps).length + (8 + p.length)⟩ },
        { r with offset := (b + ps.length) % U64 }, .error "EOF") := by
  rw [entWidth_eq] at hps hcap
  have hElen : (entriesOf ps).length = 12 * ps.length := by
    rw [entriesOf, entriesFrom_length ps 0 0, entWidth_eq]
  have hmlen : (mkIndex c.maxIndexBytes ps).mmap.length = c.maxIndexBytes := by
    simp only [mkIndex, List.length_append, hElen, List.length_replicate, entWidth_eq]
    omega
  have hguard : (mkIndex c.maxIndexBytes ps).mmap.length <
      (mkIndex c.maxIndexBytes ps).size + entWidth := by
    rw [hmlen]
    simp only [mkIndex, entWidth_eq]
    omega
  have hiw : indexWrite (mkIndex c.maxIndexBytes ps)
      (((b + ps.length) % U64 + U64 - b) % U64 % U32) (frames ps).length = .error "EOF" := by
    simp only [indexWrite]
    rw [if_pos hguard]
  simp only [segmentAppend, mkState, hM, storeAppend, hiw, encBE_length, Nat.add_assoc]

/-- Length of the payload list. -/
lemma payloads_length (b k : Nat) (rs : List Record) : (payloads b k rs).length = rs.length := by
  induction rs generalizing k with
  | nil => simp [payloads]
  | cons r rs ih => simp [payloads, ih]

/-- The j-th payload is the marshalled j-th record stamped with its assigned offset. -/
lemma payloads_getD (b k : Nat) (rs : List Record) (j : Nat) (hj : j < rs.length) :
    (payloads b k rs).getD j [] =
      encBE 8 ((b + (k + j)) % U64) ++ (rs.getD j ⟨[], 0⟩).value := by
  induction rs generalizing k j with
  | nil => simp at hj
  | cons r rs ih =>
    cases j with
    | zero => simp [payloads]
    | succ j =>
      have hj' : j < rs.length := by simpa using hj
      have := ih (k + 1) j hj'
      simp only [payloads, List.getD_cons_succ, this]
      have harith : b + (k + 1 + j) = b + (k + (j + 1)) := by omega
      rw [harith]

/-- With protoMarshal and enough index room, every append of a batch succeeds, the results
are the consecutive offsets, and the final state is the closed form on the stamped payloads. -/
lemma appendAll_total (b : Nat) (c : Config) (ps : List (List Nat)) (rs : List Record)
    (hb : b < U64) (hcap : entWidth * (ps.length + rs.length) ≤ c.maxIndexBytes) :
    appendAll protoMarshal (mkState b c ps) rs =
      (mkState b c (ps ++ payloads b ps.length rs), okOffsets b ps.length rs.length) := by
  induction rs generalizing ps with
  | nil => simp [appendAll, payloads, okOffsets]
  | cons r rs ih =>
    have hcap1 : entWidth * (ps.length + 1) ≤ c.maxIndexBytes := by
      rw [entWidth_eq] at hcap ⊢
      simp only [List.length_cons] at hcap
      omega
    have hM : protoMarshal { r with offset := (b + ps.length) % U64 } =
        .ok (encBE 8 ((b + ps.length) % U64) ++ r.value) := by
      simp [protoMarshal]
    have hstep := segmentAppend_step protoMarshal b c ps r
      (encBE 8 ((b + ps.length) % U64) ++ r.value) hb hcap1 hM
    have hcap' : entWidth * ((ps ++ [encBE 8 ((b + ps.length) % U64) ++ r.value]).length
        + rs.length) ≤ c.maxIndexBytes := by
      rw [entWidth_eq] at hcap ⊢
      simp only [List.length_append, List.length_cons, List.length_nil] at hcap ⊢
      omega
    have hih := ih (ps ++ [encBE 8 ((b + ps.length) % U64) ++ r.value]) hcap'
    simp only [appendAll, hstep, hih, List.length_append, List.length_cons, List.length_nil,
      Nat.add_zero, Nat.zero_add]
    simp only [payloads, okOffsets, List.append_assoc, List.cons_append, List.nil_append]

/-- If every append of a batch from the closed form succeeded under protoMarshal, the batch
fit in the index capacity. -/
lemma appendAll_ok_proto (b : Nat) (c : Config) (ps : List (List Nat)) (rs : List Record)
    (hb : b < U64) (hps : entWidth * ps.length ≤ c.maxIndexBytes)
    (hok : ∀ res ∈ (appendAll protoMarshal (mkState b c ps) rs).2, resOk res = true) :
    entWidth * (ps.length + rs.length) ≤ c.maxIndexBytes := by
  induction rs generalizing ps with
  | nil => simpa using hps
  | cons r rs ih =>
    have hM : protoMarshal { r with offset := (b + ps.length) % U64 } =
        .ok (encBE 8 ((b + ps.length) % U64) ++ r.value) := by
      simp [protoMarshal]
    by_cases hcap1 : entWidth * (ps.length + 1) ≤ c.maxIndexBytes
    · have hstep := segmentAppend_step protoMarshal b c ps r
        (encBE 8 ((b + ps.length) % U64) ++ r.value) hb hcap1 hM
      have hok' : ∀ res ∈ (appendAll protoMarshal
          (mkState b c (ps ++ [encBE 8 ((b + ps.length) % U64) ++ r.value])) rs).2,
          resOk res = true := by
        intro res hres
        apply hok
        simp only [appendAll, hstep]
        exact List.mem_cons_of_mem _ hres
      have hps' : entWidth * (ps ++ [encBE 8 ((b + ps.length) % U64) ++ r.value]).length ≤
          c.maxIndexBytes := by
        simpa using hcap1
      have := ih (ps ++ [encBE 8 ((b + ps.length) % U64) ++ r.value]) hps' hok'
      rw [entWidth_eq] at this ⊢
      simp only [List.length_append, List.length_cons, List.length_nil] at this ⊢
      omega
    · exfalso
      have hfull := segmentAppend_full protoMarshal b c ps r
        (encBE 8 ((b + ps.length) % U64) ++ r.value) hM hps (by omega)
      have hbad := hok (.error "EOF") (by simp only [appendAll, hfull]; exact List.mem_cons_self _ _)
      simp [resOk] at hbad

/-- Numeric value of the offset width. -/
lemma offWidth_eq : offWidth = 4 := rfl

/-- Numeric value of the position width. -/
lemma posWidth_eq : posWidth = 8 := rfl

/-- Frames of a front segment of the payload list are no longer than all frames. -/
lemma frames_take_length_le (ps : List (List Nat)) (j : Nat) :
    (frames (ps.take j)).length ≤ (frames ps).length := by
  conv_rhs => rw [← List.take_append_drop j ps]
  rw [frames_append]
  simp

/-- Field extraction from the closed-form index at a valid entry number. -/
lemma mkIndex_extract (maxIdx : Nat) (ps : List (List Nat)) (j : Nat) (hj : j < ps.length) :
    ((mkIndex maxIdx ps).mmap.drop (j * entWidth)).take offWidth = encBE 4 j ∧
    ((mkIndex maxIdx ps).mmap.drop (j * entWidth + offWidth)).take posWidth =
      encBE 8 (frames (ps.take j)).length := by
  have hex := entriesFrom_extract ps 0 0 j hj
  rw [Nat.zero_add, Nat.zero_add] at hex
  rw [show entriesFrom 0 0 ps = entriesOf ps from rfl] at hex
  have hElen : (entriesOf ps).length = entWidth * ps.length := by
    rw [entriesOf]
    exact entriesFrom_length ps 0 0
  constructor
  · have hdz : (mkIndex maxIdx ps).mmap.drop (j * entWidth) =
        (entriesOf ps).drop (j * entWidth) ++
          List.replicate (maxIdx - entWidth * ps.length) 0 := by
      simp only [mkIndex]
      refine List.drop_append_of_le_length ?_
      rw [hElen, entWidth_eq] at *
      omega
    rw [hdz, List.take_append_of_le_length ?hlen, Nat.mul_comm, hex.1]
    case hlen =>
      rw [List.length_drop, hElen, entWidth_eq, offWidth_eq] at *
      omega
  · have hdz : (mkIndex maxIdx ps).mmap.drop (j * entWidth + offWidth) =
        (entriesOf ps).drop (j * entWidth + offWidth) ++
          List.replicate (maxIdx - entWidth * ps.length) 0 := by
      simp only [mkIndex]
      refine List.drop_append_of_le_length ?_
      rw [hElen, entWidth_eq, offWidth_eq] at *
      omega
    rw [hdz, List.take_append_of_le_length ?hlen2, Nat.mul_comm, hex.2]
    case hlen2 =>
      rw [List.length_drop, hElen, entWidth_eq, offWidth_eq, posWidth_eq] at *
      omega

/-- Reading the offset assigned to entry j of the closed-form segment returns the decoded
j-th payload. -/
lemma segmentRead_mkState (u : List Nat → Except String Record) (b : Nat) (c : Config)
    (ps : List (List Nat)) (j : Nat) (hb : b < U64) (hj : j < ps.length) (hjU : j < U32)
    (hsz : (frames ps).length < U64) :
    segmentRead u (mkState b c ps) ((b + j) % U64) = u (ps.getD j []) := by
  have hjU' : j < 4294967296 := by
    rw [U32] at hjU
    omega
  have hjU64 : j < U64 := by
    rw [U64]
    omega
  have hd : ((b + j) % U64 + U64 - b) % U64 = j := by
    rw [wrap_diff b j hb, Nat.mod_eq_of_lt hjU64]
  have hne : ¬ (toInt64 j = -1) := by
    simp only [toInt64]
    split <;> omega
  have hout : (toInt64 j % (4294967296 : Int)).toNat = j := by
    rw [toInt64_emod_U32, Nat.mod_eq_of_lt hjU]
  have hsize0 : ¬ ((mkIndex c.maxIndexBytes ps).size = 0) := by
    simp only [mkIndex, entWidth_eq]
    omega
  have hguard : ¬ ((mkIndex c.maxIndexBytes ps).size < j * entWidth + entWidth) := by
    simp only [mkIndex, entWidth_eq]
    omega
  have hex := mkIndex_extract c.maxIndexBytes ps j hj
  have hflen : (frames (ps.take j)).length < U64 :=
    lt_of_le_of_lt (frames_take_length_le ps j) hsz
  have hrd := storeRead_frames ps j hj hsz
  simp only [segmentRead, mkState, hd, indexRead, if_neg hsize0, if_neg hne, hout,
    if_neg hguard, hex.2, decBE_encBE8, Nat.mod_eq_of_lt hflen, hrd]

/-- Reads depend only on the index, the store and the base offset. -/
lemma segmentRead_congr (u : List Nat → Except String Record) (s t : segment)
    (hst : s.store = t.store) (hidx : s.index = t.index) (hbo : s.baseOffset = t.baseOffset)
    (off : Nat) : segmentRead u s off = segmentRead u t off := by
  simp only [segmentRead, hst, hidx, hbo]

/-- Reading the last entry of the non-empty closed-form index returns the stored relative
offset of entry count minus one, truncated to uint32. -/
lemma indexRead_last_mkIndex (maxIdx : Nat) (ps : List (List Nat)) (hk0 : ps.length ≠ 0)
    (hk : ps.length < U64) :
    ∃ pos, indexRead (mkIndex maxIdx ps) (-1) = .ok ((ps.length - 1) % U32, pos) := by
  have hj : (ps.length - 1) % U32 < ps.length := by
    have h1 : (ps.length - 1) % U32 ≤ ps.length - 1 := Nat.mod_le _ _
    omega
  have hjU : (ps.length - 1) % U32 < U32 := Nat.mod_lt _ (by rw [U32]; omega)
  have hsize0 : ¬ ((mkIndex maxIdx ps).size = 0) := by
    simp only [mkIndex, entWidth_eq]
    omega
  have hdiv : (mkIndex maxIdx ps).size / entWidth = ps.length := by
    simp only [mkIndex]
    exact Nat.mul_div_cancel_left ps.length (by rw [entWidth_eq]; omega)
  have hout : (ps.length + U64 - 1) % U64 % U32 = (ps.length - 1) % U32 := by
    rw [U64, U32] at *
    omega
  have hguard : ¬ ((mkIndex maxIdx ps).size <
      (ps.length - 1) % U32 * entWidth + entWidth) := by
    simp only [mkIndex, entWidth_eq]
    rw [U32] at *
    omega
  have hex := mkIndex_extract maxIdx ps ((ps.length - 1) % U32) hj
  refine ⟨decBE (((mkIndex maxIdx ps).mmap.drop ((ps.length - 1) % U32 * entWidth +
    offWidth)).take posWidth), ?_⟩
  simp only [indexRead, if_neg hsize0, if_pos rfl, if_true, hdiv, hout, if_neg hguard, hex.1,
    decBE_encBE4, Nat.mod_eq_of_lt hjU]

/-- Closing the closed-form segment and constructing a new segment over the resulting
directory restores the same store and index, with nextOffset recomputed from the last
index entry. -/
lemma reopen_mkState (b : Nat) (c : Config) (ps : List (List Nat)) (hb : b < U64)
    (hcap : entWidth * ps.length ≤ c.maxIndexBytes) (hk : ps.length < U64) :
    newSegment (segmentCloseDisk (mkState b c ps)) b c =
      { mkState b c ps with
          nextOffset := if ps.length = 0 then b
            else (b + (ps.length - 1) % U32 + 1) % U64 } := by
  have hElen : (entriesOf ps).length = entWidth * ps.length := by
    rw [entriesOf]
    exact entriesFrom_length ps 0 0
  have hclose : segmentCloseDisk (mkState b c ps) = ⟨frames ps, entriesOf ps⟩ := by
    simp only [segmentCloseDisk, mkState, indexClose, mkIndex]
    congr 1
    rw [List.take_append_of_le_length (by rw [List.length_append, hElen]; omega)]
    rw [List.take_append_of_le_length (by rw [hElen])]
    rw [← hElen, List.take_length]
  have hremap : ((entriesOf ps ++ List.replicate c.maxIndexBytes 0).take c.maxIndexBytes) =
      entriesOf ps ++ List.replicate (c.maxIndexBytes - entWidth * ps.length) 0 := by
    rw [List.take_append_eq_append_take, List.take_of_length_le (by omega), List.take_replicate]
    congr 2
    rw [hElen]
    omega
  have hidx : newIndex (entriesOf ps) c.maxIndexBytes = mkIndex c.maxIndexBytes ps := by
    simp only [newIndex, mkIndex, hremap, hElen]
  rw [newSegment, hclose]
  simp only [hidx]
  cases hps0 : ps.length with
  | zero =>
    have hempty : ps = [] := List.length_eq_zero.mp hps0
    subst hempty
    simp [mkIndex, indexRead, entriesOf, entriesFrom, mkState, newStore, frames,
      Nat.mod_eq_of_lt hb]
  | succ n =>
    have hk0 : ps.length ≠ 0 := by omega
    obtain ⟨pos, hlast⟩ := indexRead_last_mkIndex c.maxIndexBytes ps hk0 hk
    rw [hps0] at hlast
    simp only [hlast, mkState, newStore, hps0]
    rw [if_neg (by omega)]

/-- A read on a segment whose index holds no valid bytes fails with end of data. -/
lemma segmentRead_empty_index (u : List Nat → Except String Record) (s : segment) (off : Nat)
    (hsz : s.index.size = 0) : segmentRead u s off = .error "EOF" := by
  simp [segmentRead, indexRead, hsz]

/-- A read outside the closed-form segment fails with end of data whenever the wrapped
difference is not the all-ones value and does not alias a written entry modulo uint32. -/
lemma segmentRead_mkState_miss (u : List Nat → Except String Record) (b : Nat) (c : Config)
    (ps : List (List Nat)) (off : Nat)
    (hne : (off + U64 - b) % U64 ≠ U64 - 1)
    (hal : ps.length ≤ (off + U64 - b) % U64 % U32) :
    segmentRead u (mkState b c ps) off = .error "EOF" := by
  set d := (off + U64 - b) % U64 with hd
  have hdlt : d < U64 := Nat.mod_lt _ (by rw [U64]; omega)
  have hne1 : ¬ (toInt64 d = -1) := fun h => hne ((toInt64_eq_neg_one d hdlt).mp h)
  have hout : (toInt64 d % (4294967296 : Int)).toNat = d % U32 := toInt64_emod_U32 d
  by_cases hps0 : (mkIndex c.maxIndexBytes ps).size = 0
  · simp [segmentRead, mkState, indexRead, hps0]
  · have hguard : (mkIndex c.maxIndexBytes ps).size < d % U32 * entWidth + entWidth := by
      simp only [mkIndex, entWidth_eq]
      omega
    simp only [segmentRead, mkState, indexRead, if_neg hps0, if_neg hne1, hout,
      if_pos hguard]

/-- Every entry of the expected result list is a success. -/
lemma okOffsets_mem_ok (b k n : Nat) : ∀ res ∈ okOffsets b k n, resOk res = true := by
  induction n generalizing k with
  | zero => simp [okOffsets]
  | succ n ih =>
    intro res hres
    rcases List.mem_cons.mp hres with h | h
    · rw [h]; rfl
    · exact ih (k + 1) res h

/-- Without uint64 wraparound the expected results are the consecutive plain offsets. -/
lemma okOffsets_eq_map (b k n : Nat) (h : b + k + n < U64) :
    okOffsets b k n = (List.range n).map (fun i => .ok (b + k + i)) := by
  induction n generalizing k with
  | zero => simp [okOffsets]
  | succ n ih =>
    have hbk : (b + k) % U64 = b + k := Nat.mod_eq_of_lt (by omega)
    have hih := ih (k + 1) (by omega)
    have hfun : ((fun i => Except.ok (b + k + i)) ∘ Nat.succ) =
        (fun i => (Except.ok (b + (k + 1) + i) : Except String Nat)) := by
      funext i
      simp only [Function.comp_apply]
      congr 1
      omega
    rw [okOffsets, hbk, hih, List.range_succ_eq_map, List.map_cons, List.map_map, hfun]
    simp

/-- Decoding inverts the modelled serializer on any stamped record. -/
lemma protoUnmarshal_protoMarshal (v : List Nat) (off : Nat) (hoff : off < U64) :
    protoUnmarshal (encBE 8 off ++ v) = .ok ⟨v, off⟩ := by
  have hlen : (encBE 8 off).length = 8 := encBE_length 8 off
  have h8 : ¬ ((encBE 8 off ++ v).length < 8) := by
    rw [List.length_append, hlen]
    omega
  have htake : (encBE 8 off ++ v).take 8 = encBE 8 off := by
    have h := List.take_left (encBE 8 off) v
    rw [hlen] at h
    exact h
  have hdrop : (encBE 8 off ++ v).drop 8 = v := by
    have h := List.drop_left (encBE 8 off) v
    rw [hlen] at h
    exact h
  simp only [protoUnmarshal, if_neg h8, htake, hdrop, decBE_encBE8, Nat.mod_eq_of_lt hoff]

/-- C3: for every marshaller, segment state and record, segment.Append leaves nextOffset
unchanged whenever it returns an error (serialization failure, store failure or index-write
failure), and advances it by exactly one, in uint64 arithmetic, exactly when it succeeds:
nextOffset is incremented only after both the store append and the index write succeeded. -/
theorem c3_append_error_keeps_nextOffset (M : Record → Except String (List Nat))
    (s : segment) (r : Record) :
    (segmentAppend M s r).1.nextOffset =
      (if resOk (segmentAppend M s r).2.2 then (s.nextOffset + 1) % U64 else s.nextOffset) := by
  cases hm : M { r with offset := s.nextOffset } with
  | error e => simp [segmentAppend, hm, resOk]
  | ok p =>
    cases hw : indexWrite s.index ((s.nextOffset + U64 - s.baseOffset) % U64 % U32)
        s.store.size with
    | error e => simp [segmentAppend, storeAppend, hm, hw, resOk]
    | ok idx => simp [segmentAppend, storeAppend, hm, hw, resOk]

/-- C7 counterexample: when the index close fails, segment.Close returns that error at once
and the store close is never attempted (second component false), contradicting the claim
that both closes are always attempted. -/
theorem c7_close_counterexample :
    segmentCloseFlow (.error "sync failed") (.ok ()) = (.error "sync failed", false) := rfl

/-- C7 amended: segment.Close closes the index first; if that close fails, its error is
returned immediately and the store close is not attempted; only when the index close
succeeds is the store closed, and its result is returned. -/
theorem c7_close_amended :
    (∀ (e : String) (sr : Except String Unit),
        segmentCloseFlow (.error e) sr = (.error e, false)) ∧
    (∀ sr : Except String Unit, segmentCloseFlow (.ok ()) sr = (sr, true)) := by
  constructor
  · intro e sr
    rfl
  · intro sr
    cases sr with
    | error e => rfl
    | ok u => cases u; rfl

/-- C8 counterexample: when newIndex fails after both file opens and newStore succeeded,
construction fails (first component false) while the store file handle is still open
(second component true): the handle is leaked, not closed. -/
theorem c8_leak_counterexample :
    newSegmentResources true true true false = (false, true, true) := rfl

/-- C8 amended: newSegment performs no cleanup on any failure path: construction succeeds
only when all four steps do, the store file handle is open at return exactly when its open
succeeded, and the index file handle exactly when every step before newIndex succeeded —
so a failed index creation leaks the store's open file handle. -/
theorem c8_leak_amended (s1 s2 s3 s4 : Bool) :
    newSegmentResources s1 s2 s3 s4 = (s1 && s2 && s3 && s4, s1, s1 && s2 && s3) := by
  cases s1 <;> cases s2 <;> cases s3 <;> cases s4 <;> rfl

/-- C9: for k > 0, nearestMultiple j k returns (j / k) * k, the largest multiple of k that
is at most j; only the non-negative rounding-down branch is observable since the negative
arm is unreachable for unsigned inputs. -/
theorem c9_nearest_multiple (j k : Nat) (hk : 0 < k) :
    nearestMultiple j k = j / k * k ∧ nearestMultiple j k ≤ j ∧ k ∣ nearestMultiple j k ∧
    (∀ m, k ∣ m → m ≤ j → m ≤ nearestMultiple j k) := by
  have h1 : nearestMultiple j k = j / k * k := by simp [nearestMultiple]
  refine ⟨h1, ?_, ?_, ?_⟩
  · rw [h1]
    exact Nat.div_mul_le_self j k
  · rw [h1]
    exact dvd_mul_left k (j / k)
  · intro m hm hmle
    rw [h1]
    obtain ⟨t, rfl⟩ := hm
    have ht : t ≤ j / k := (Nat.le_div_iff_mul_le hk).mpr (by rwa [Nat.mul_comm k t] at hmle)
    calc k * t ≤ k * (j / k) := Nat.mul_le_mul_left k ht
      _ = j / k * k := Nat.mul_comm k (j / k)

/-- C9 witness: concrete evaluation at j = 7, k = 3. -/
theorem c9_nearest_multiple_witness :
    0 < 3 ∧ (nearestMultiple 7 3 = 7 / 3 * 3 ∧ nearestMultiple 7 3 ≤ 7 ∧
      3 ∣ nearestMultiple 7 3 ∧ ∀ m, 3 ∣ m → m ≤ 7 → m ≤ nearestMultiple 7 3) :=
  ⟨by decide, c9_nearest_multiple 7 3 (by decide)⟩

/-- C10: segment.Append stamps the caller's record with the current nextOffset before
serialization, and the stamped record is observable regardless of whether the append then
fails or succeeds. -/
theorem c10_offset_stamped (M : Record → Except String (List Nat)) (s : segment)
    (r : Record) :
    (segmentAppend M s r).2.1 = { r with offset := s.nextOffset } := by
  cases hm : M { r with offset := s.nextOffset } with
  | error e => simp [segmentAppend, hm]
  | ok p =>
    cases hw : indexWrite s.index ((s.nextOffset + U64 - s.baseOffset) % U64 % U32)
        s.store.size with
    | error e => simp [segmentAppend, storeAppend, hm, hw]
    | ok idx => simp [segmentAppend, storeAppend, hm, hw]

/-- C1 counterexample: on a segment with baseOffset 1 holding one record, Read(0) — an
offset below baseOffset, hence outside the range whose bounds the first two conjuncts
exhibit — does not fail: the uint64 subtraction 0 - 1 wraps to the all-ones value, int64
reinterpretation makes it -1, index.Read serves the last entry, and the last record is
returned. The claim that such reads always fail with end of data is false. -/
theorem c1_read_miss_counterexample :
    (appendAll protoMarshal (newSegment emptyDisk 1 ⟨1000, 12⟩) [⟨[7], 0⟩]).1.baseOffset = 1 ∧
    (appendAll protoMarshal (newSegment emptyDisk 1 ⟨1000, 12⟩) [⟨[7], 0⟩]).1.nextOffset = 2 ∧
    segmentRead protoUnmarshal
      (appendAll protoMarshal (newSegment emptyDisk 1 ⟨1000, 12⟩) [⟨[7], 0⟩]).1 0 =
      .ok ⟨[7], 1⟩ :=
  ⟨rfl, by decide, rfl⟩

/-- C1 amended: on a segment built by successful appends, Read(off) fails with end of data
for every offset whose wrapped difference d = (off - baseOffset) mod 2^64 is neither the
all-ones value (which selects the last entry) nor congruent modulo 2^32 to a written
relative offset; on an empty segment every read fails. Outside these provisos the code can
return a record of a different offset, as the counterexample shows. -/
theorem c1_read_miss_amended (u : List Nat → Except String Record) (b : Nat) (c : Config)
    (rs : List Record) (off : Nat) (hb : b < U64)
    (hok : ∀ res ∈ (appendAll protoMarshal (newSegment emptyDisk b c) rs).2, resOk res = true)
    (hmiss : rs = [] ∨ ((off + U64 - b) % U64 ≠ U64 - 1 ∧
        rs.length ≤ (off + U64 - b) % U64 % U32)) :
    segmentRead u (appendAll protoMarshal (newSegment emptyDisk b c) rs).1 off =
      .error "EOF" := by
  rw [newSegment_empty b c hb] at hok ⊢
  have hps : entWidth * ([] : List (List Nat)).length ≤ c.maxIndexBytes := by simp
  have hcap := appendAll_ok_proto b c [] rs hb hps hok
  have htot := appendAll_total b c [] rs hb hcap
  simp only [List.nil_append, List.length_nil, Nat.zero_add] at htot
  have h1 : (appendAll protoMarshal (mkState b c []) rs).1 = mkState b c (payloads b 0 rs) := by
    rw [htot]
  rw [h1]
  rcases hmiss with hnil | ⟨hne, hal⟩
  · subst hnil
    refine segmentRead_empty_index u _ off ?_
    simp [mkState, mkIndex, payloads]
  · refine segmentRead_mkState_miss u b c _ off hne ?_
    rw [payloads_length]
    exact hal

/-- C1 amended witness: concrete evaluation at baseOffset 1, one record, Read(3). -/
theorem c1_read_miss_amended_witness :
    segmentRead protoUnmarshal
      (appendAll protoMarshal (newSegment emptyDisk 1 ⟨1000, 12⟩) [⟨[7], 0⟩]).1 3 =
      .error "EOF" :=
  c1_read_miss_amended protoUnmarshal 1 ⟨1000, 12⟩ [⟨[7], 0⟩] 3 (by decide) (by decide)
    (Or.inr ⟨by decide, by decide⟩)

/-- C4: with maxIndexBytes = 12 * k, the first k appends of serializable records to a fresh
segment all succeed and the (k+1)-th fails with the capacity error raised by index.Write
(the store never rejects an append in the model, so store capacity permits); index.Write
fails exactly when 12 more bytes would pass the mapped region's length; and IsMaxed, a pure
predicate, is true exactly when the store size has reached maxStoreBytes or the index size
has reached maxIndexBytes. -/
theorem c4_capacity_enforcement (b k : Nat) (c : Config) (rs : List Record) (r : Record)
    (hb : b < U64) (hc : c.maxIndexBytes = entWidth * k) (hlen : rs.length = k) :
    (∀ res ∈ (appendAll protoMarshal (newSegment emptyDisk b c) rs).2, resOk res = true) ∧
    (segmentAppend protoMarshal
        (appendAll protoMarshal (newSegment emptyDisk b c) rs).1 r).2.2 = .error "EOF" ∧
    (∀ (i : index) (off pos : Nat),
        (∃ e, indexWrite i off pos = .error e) ↔ i.mmap.length < i.size + entWidth) ∧
    (∀ s : segment, segmentIsMaxed s = true ↔
        (s.config.maxStoreBytes ≤ s.store.size ∨ s.config.maxIndexBytes ≤ s.index.size)) := by
  have hcap : entWidth * (([] : List (List Nat)).length + rs.length) ≤ c.maxIndexBytes := by
    rw [hc, hlen]
    simp
  have htot := appendAll_total b c [] rs hb hcap
  simp only [List.nil_append, List.length_nil, Nat.zero_add] at htot
  have h1 : (appendAll protoMarshal (mkState b c []) rs).1 = mkState b c (payloads b 0 rs) := by
    rw [htot]
  have h2 : (appendAll protoMarshal (mkState b c []) rs).2 = okOffsets b 0 rs.length := by
    rw [htot]
  have hqlen : (payloads b 0 rs).length = k := by rw [payloads_length, hlen]
  refine ⟨?_, ?_, ?_, ?_⟩
  · rw [newSegment_empty b c hb, h2]
    exact okOffsets_mem_ok b 0 rs.length
  · rw [newSegment_empty b c hb, h1]
    have hfull := segmentAppend_full protoMarshal b c (payloads b 0 rs) r
      (encBE 8 ((b + (payloads b 0 rs).length) % U64) ++ r.value)
      (by simp [protoMarshal]) (by rw [hc, hqlen])
      (by rw [hc, hqlen, entWidth_eq]; omega)
    rw [hfull]
  · intro i off pos
    constructor
    · rintro ⟨e, he⟩
      by_contra hlt
      simp only [indexWrite, if_neg hlt] at he
      exact Except.noConfusion he
    · intro hlt
      refine ⟨"EOF", ?_⟩
      simp only [indexWrite, if_pos hlt]
  · intro s
    simp [segmentIsMaxed, Bool.or_eq_true, decide_eq_true_eq]

/-- C4 witness: with maxIndexBytes = 12 and one record appended, the second append fails
with the capacity error. -/
theorem c4_capacity_enforcement_witness :
    (segmentAppend protoMarshal
        (appendAll protoMarshal (newSegment emptyDisk 0 ⟨1000, 12⟩) [⟨[7], 0⟩]).1
        ⟨[8], 0⟩).2.2 = .error "EOF" :=
  (c4_capacity_enforcement 0 1 ⟨1000, 12⟩ [⟨[7], 0⟩] ⟨[8], 0⟩ (by decide) (by decide)
    (by decide)).2.1

/-- C5: appending a record to a fresh segment with sufficient capacity and reading back the
returned offset yields a record with the same value and the returned offset in the offset
field. -/
theorem c5_round_trip (b : Nat) (c : Config) (r : Record) (s1 : segment) (rec : Record)
    (off : Nat) (hb : b < U64) (hcap : entWidth ≤ c.maxIndexBytes)
    (hv : r.value.length + 16 < U64)
    (happ : segmentAppend protoMarshal (newSegment emptyDisk b c) r = (s1, rec, .ok off)) :
    segmentRead protoUnmarshal s1 off = .ok ⟨r.value, off⟩ := by
  rw [newSegment_empty b c hb] at happ
  have hM : protoMarshal { r with offset := (b + ([] : List (List Nat)).length) % U64 } =
      .ok (encBE 8 ((b + ([] : List (List Nat)).length) % U64) ++ r.value) := by
    simp [protoMarshal]
  have hstep := segmentAppend_step protoMarshal b c [] r
    (encBE 8 ((b + ([] : List (List Nat)).length) % U64) ++ r.value) hb
    (by simpa [entWidth_eq] using hcap) hM
  simp only [List.nil_append, List.length_nil, Nat.add_zero, Nat.mod_eq_of_lt hb] at hstep
  rw [hstep] at happ
  injection happ with hseg hrest
  injection hrest with hrec hres
  injection hres with hoff
  subst hoff
  subst hseg
  have hb0 : (b + 0) % U64 = b := by rw [Nat.add_zero, Nat.mod_eq_of_lt hb]
  have hfl : (frames [encBE 8 b ++ r.value]).length = 8 + (8 + r.value.length) := by
    rw [frames_length_cons]
    simp [frames, encBE_length]
  have hsz : (frames [encBE 8 b ++ r.value]).length < U64 := by
    rw [hfl]
    omega
  have hread := segmentRead_mkState protoUnmarshal b c [encBE 8 b ++ r.value] 0 hb
    (by simp) (by rw [U32]; omega) hsz
  rw [hb0] at hread
  rw [hread]
  simp only [List.getD_cons_zero]
  exact protoUnmarshal_protoMarshal r.value b hb

/-- C5 witness: concrete round trip at baseOffset 0 with payload bytes 1, 2. -/
theorem c5_round_trip_witness :
    segmentRead protoUnmarshal
      (segmentAppend protoMarshal (newSegment emptyDisk 0 ⟨1000, 12⟩) ⟨[1, 2], 7⟩).1 0 =
      .ok ⟨[1, 2], 0⟩ :=
  c5_round_trip 0 ⟨1000, 12⟩ ⟨[1, 2], 7⟩
    (segmentAppend protoMarshal (newSegment emptyDisk 0 ⟨1000, 12⟩) ⟨[1, 2], 7⟩).1
    (segmentAppend protoMarshal (newSegment emptyDisk 0 ⟨1000, 12⟩) ⟨[1, 2], 7⟩).2.1
    0 (by decide) (by decide) (by decide) rfl

/-- C6 counterexample: a fresh segment at baseOffset 2^64 - 1 returns offsets 2^64 - 1 and
then 0 on two successful appends — not strictly increasing — and afterwards nextOffset is 1,
below baseOffset, refuting the nextOffset >= baseOffset invariant as universally stated. -/
theorem c6_offsets_counterexample :
    (appendAll protoMarshal (newSegment emptyDisk 18446744073709551615 ⟨1000, 24⟩)
        [⟨[7], 0⟩, ⟨[8], 0⟩]).2 =
      [.ok 18446744073709551615, .ok 0] ∧
    (appendAll protoMarshal (newSegment emptyDisk 18446744073709551615 ⟨1000, 24⟩)
        [⟨[7], 0⟩, ⟨[8], 0⟩]).1.nextOffset = 1 ∧
    ¬ ((appendAll protoMarshal (newSegment emptyDisk 18446744073709551615 ⟨1000, 24⟩)
        [⟨[7], 0⟩, ⟨[8], 0⟩]).1.baseOffset ≤
       (appendAll protoMarshal (newSegment emptyDisk 18446744073709551615 ⟨1000, 24⟩)
        [⟨[7], 0⟩, ⟨[8], 0⟩]).1.nextOffset) ∧
    ¬ ((18446744073709551615 : Nat) < 0) :=
  ⟨rfl, by decide, by decide, by decide⟩

/-- C6 amended: every successful Append returns the pre-call nextOffset and sets nextOffset
to its successor modulo 2^64; from a fresh segment, as long as baseOffset plus the number of
appends stays below 2^64 (no uint64 wrap), the returned offsets are exactly baseOffset,
baseOffset + 1, ... with no gaps, and nextOffset = baseOffset + count >= baseOffset. At the
wrap boundary the counterexample applies. -/
theorem c6_offsets_amended :
    (∀ (M : Record → Except String (List Nat)) (s : segment) (r : Record) (s1 : segment)
        (rec : Record) (off : Nat),
        segmentAppend M s r = (s1, rec, .ok off) →
          off = s.nextOffset ∧ s1.nextOffset = (s.nextOffset + 1) % U64) ∧
    (∀ (b : Nat) (c : Config) (rs : List Record), b < U64 → b + rs.length < U64 →
        (∀ res ∈ (appendAll protoMarshal (newSegment emptyDisk b c) rs).2, resOk res = true) →
        (appendAll protoMarshal (newSegment emptyDisk b c) rs).2 =
            (List.range rs.length).map (fun i => .ok (b + i)) ∧
          (appendAll protoMarshal (newSegment emptyDisk b c) rs).1.nextOffset =
            b + rs.length ∧
          b ≤ (appendAll protoMarshal (newSegment emptyDisk b c) rs).1.nextOffset) := by
  constructor
  · intro M s r s1 rec off happ
    cases hm : M { r with offset := s.nextOffset } with
    | error e =>
      simp only [segmentAppend, hm, Prod.mk.injEq] at happ
      exact Except.noConfusion happ.2.2
    | ok p =>
      cases hw : indexWrite s.index ((s.nextOffset + U64 - s.baseOffset) % U64 % U32)
          s.store.size with
      | error e =>
        simp only [segmentAppend, storeAppend, hm, hw, Prod.mk.injEq] at happ
        exact Except.noConfusion happ.2.2
      | ok idx =>
        simp only [segmentAppend, storeAppend, hm, hw, Prod.mk.injEq] at happ
        obtain ⟨h1, h2, h3⟩ := happ
        injection h3 with h4
        refine ⟨h4.symm, ?_⟩
        rw [← h1]
  · intro b c rs hb hwrap hok
    rw [newSegment_empty b c hb] at hok ⊢
    have hps : entWidth * ([] : List (List Nat)).length ≤ c.maxIndexBytes := by simp
    have hcap := appendAll_ok_proto b c [] rs hb hps hok
    have htot := appendAll_total b c [] rs hb hcap
    simp only [List.nil_append, List.length_nil, Nat.zero_add] at htot
    have h1 : (appendAll protoMarshal (mkState b c []) rs).1 =
        mkState b c (payloads b 0 rs) := by rw [htot]
    have h2 : (appendAll protoMarshal (mkState b c []) rs).2 =
        okOffsets b 0 rs.length := by rw [htot]
    have hnext : (mkState b c (payloads b 0 rs)).nextOffset = b + rs.length := by
      simp only [mkState, payloads_length]
      exact Nat.mod_eq_of_lt (by omega)
    refine ⟨?_, ?_, ?_⟩
    · rw [h2, okOffsets_eq_map b 0 rs.length (by omega)]
      simp
    · rw [h1, hnext]
    · rw [h1, hnext]
      omega

/-- C6 amended witness: concrete evaluation at baseOffset 5 with two records. -/
theorem c6_offsets_amended_witness :
    (appendAll protoMarshal (newSegment emptyDisk 5 ⟨1000, 24⟩) [⟨[7], 0⟩, ⟨[8], 0⟩]).2 =
        (List.range ([⟨[7], 0⟩, ⟨[8], 0⟩] : List Record).length).map (fun i => .ok (5 + i)) ∧
      (appendAll protoMarshal (newSegment emptyDisk 5 ⟨1000, 24⟩)
          [⟨[7], 0⟩, ⟨[8], 0⟩]).1.nextOffset = 5 + ([⟨[7], 0⟩, ⟨[8], 0⟩] : List Record).length ∧
      5 ≤ (appendAll protoMarshal (newSegment emptyDisk 5 ⟨1000, 24⟩)
          [⟨[7], 0⟩, ⟨[8], 0⟩]).1.nextOffset :=
  c6_offsets_amended.2 5 ⟨1000, 24⟩ [⟨[7], 0⟩, ⟨[8], 0⟩] (by decide) (by decide) (by decide)

/-- Symbolic form of the recovery counterexample: n empty records appended to a fresh
segment at baseOffset 0 with index capacity exactly 12 * n all succeed, leave nextOffset n,
and reopening after close recomputes nextOffset through uint32-truncated arithmetic. -/
lemma recovery_wrap_general (n : Nat) (hn : 0 < n) (hnU : n < U64) :
    (∀ res ∈ (appendAll protoMarshal (newSegment emptyDisk 0 ⟨0, entWidth * n⟩)
        (List.replicate n ⟨[], 0⟩)).2, resOk res = true) ∧
    (appendAll protoMarshal (newSegment emptyDisk 0 ⟨0, entWidth * n⟩)
        (List.replicate n ⟨[], 0⟩)).1.nextOffset = n ∧
    (newSegment (segmentCloseDisk (appendAll protoMarshal (newSegment emptyDisk 0
        ⟨0, entWidth * n⟩) (List.replicate n ⟨[], 0⟩)).1) 0
        ⟨0, entWidth * n⟩).nextOffset = ((n - 1) % U32 + 1) % U64 := by
  have hb : (0 : Nat) < U64 := by rw [U64]; omega
  have hcap : entWidth * (([] : List (List Nat)).length +
      (List.replicate n (⟨[], 0⟩ : Record)).length) ≤
      (⟨0, entWidth * n⟩ : Config).maxIndexBytes := by
    rw [entWidth_eq] at *
    simp only [List.length_nil, List.length_replicate, Nat.zero_add]
    omega
  have htot := appendAll_total 0 ⟨0, entWidth * n⟩ [] (List.replicate n ⟨[], 0⟩) hb hcap
  simp only [List.nil_append, List.length_nil, Nat.zero_add, List.length_replicate] at htot
  have h1 : (appendAll protoMarshal (mkState 0 ⟨0, entWidth * n⟩ [])
      (List.replicate n ⟨[], 0⟩)).1 =
      mkState 0 ⟨0, entWidth * n⟩ (payloads 0 0 (List.replicate n ⟨[], 0⟩)) := by
    rw [htot]
  have h2 : (appendAll protoMarshal (mkState 0 ⟨0, entWidth * n⟩ [])
      (List.replicate n ⟨[], 0⟩)).2 = okOffsets 0 0 n := by
    rw [htot]
  have hqlen : (payloads 0 0 (List.replicate n (⟨[], 0⟩ : Record))).length = n := by
    rw [payloads_length, List.length_replicate]
  have hcap' : entWidth * (payloads 0 0 (List.replicate n (⟨[], 0⟩ : Record))).length ≤
      (⟨0, entWidth * n⟩ : Config).maxIndexBytes := by
    rw [hqlen]
  have hkU : (payloads 0 0 (List.replicate n (⟨[], 0⟩ : Record))).length < U64 := by
    rw [hqlen]
    exact hnU
  have hro := reopen_mkState 0 ⟨0, entWidth * n⟩
    (payloads 0 0 (List.replicate n ⟨[], 0⟩)) hb hcap' hkU
  refine ⟨?_, ?_, ?_⟩
  · rw [newSegment_empty 0 ⟨0, entWidth * n⟩ hb, h2]
    exact okOffsets_mem_ok 0 0 n
  · rw [newSegment_empty 0 ⟨0, entWidth * n⟩ hb, h1]
    simp only [mkState, hqlen, Nat.zero_add]
    exact Nat.mod_eq_of_lt hnU
  · rw [newSegment_empty 0 ⟨0, entWidth * n⟩ hb, h1]
    simp only [hro, hqlen]
    rw [if_neg (by omega), Nat.zero_add]

/-- C2 counterexample: with maxIndexBytes = 12 * (2^32 + 1), a fresh segment at baseOffset 0
accepts 2^32 + 1 appends (all succeed), leaving nextOffset = 2^32 + 1; after close and
reopen the recovery reads the last entry through uint32-truncated arithmetic and computes
nextOffset = 1, not 2^32 + 1 — recovery is not idempotent as universally claimed. -/
theorem c2_recovery_counterexample :
    (∀ res ∈ (appendAll protoMarshal (newSegment emptyDisk 0 ⟨0, 51539607564⟩)
        (List.replicate 4294967297 ⟨[], 0⟩)).2, resOk res = true) ∧
    (appendAll protoMarshal (newSegment emptyDisk 0 ⟨0, 51539607564⟩)
        (List.replicate 4294967297 ⟨[], 0⟩)).1.nextOffset = 4294967297 ∧
    (newSegment (segmentCloseDisk (appendAll protoMarshal (newSegment emptyDisk 0
        ⟨0, 51539607564⟩) (List.replicate 4294967297 ⟨[], 0⟩)).1) 0
        ⟨0, 51539607564⟩).nextOffset = 1 ∧
    (4294967297 : Nat) ≠ 1 := by
  have hg := recovery_wrap_general 4294967297 (by omega) (by rw [U64]; omega)
  have hc : (⟨0, entWidth * 4294967297⟩ : Config) = ⟨0, 51539607564⟩ := by
    rw [entWidth_eq]
  rw [hc] at hg
  have h3 : ((4294967297 - 1) % U32 + 1) % U64 = 1 := by
    rw [U32, U64]
  rw [h3] at hg
  exact ⟨hg.1, hg.2.1, hg.2.2, by omega⟩

/-- C2 amended: nextOffset is derived solely from the index on every construction (last
entry present: baseOffset + off + 1 in uint64 arithmetic; read failure: baseOffset); for a
segment built by at most 2^32 successful appends, close followed by reconstruction over the
same directory and baseOffset restores the identical store and index, reproduces the
pre-close nextOffset, and every read — in particular of every previously appended offset,
which returns the appended value stamped with its offset — is unchanged. Beyond 2^32
appends the uint32 relative-offset truncation breaks nextOffset recovery (counterexample). -/
theorem c2_recovery_amended (u : List Nat → Except String Record) (b : Nat) (c : Config)
    (rs : List Record) (hb : b < U64) (hk32 : rs.length ≤ U32)
    (hok : ∀ res ∈ (appendAll protoMarshal (newSegment emptyDisk b c) rs).2, resOk res = true)
    (hsz : (appendAll protoMarshal (newSegment emptyDisk b c) rs).1.store.size < U64) :
    (∀ (d : Disk) (e : String), indexRead (newSegment d b c).index (-1) = .error e →
        (newSegment d b c).nextOffset = b) ∧
    (∀ (d : Disk) (ro pos : Nat), indexRead (newSegment d b c).index (-1) = .ok (ro, pos) →
        (newSegment d b c).nextOffset = (b + ro + 1) % U64) ∧
    (newSegment (segmentCloseDisk (appendAll protoMarshal (newSegment emptyDisk b c) rs).1)
        b c).nextOffset =
      (appendAll protoMarshal (newSegment emptyDisk b c) rs).1.nextOffset ∧
    (∀ off : Nat, segmentRead u (newSegment (segmentCloseDisk
          (appendAll protoMarshal (newSegment emptyDisk b c) rs).1) b c) off =
        segmentRead u (appendAll protoMarshal (newSegment emptyDisk b c) rs).1 off) ∧
    (∀ j : Nat, j < rs.length →
        segmentRead protoUnmarshal (newSegment (segmentCloseDisk
            (appendAll protoMarshal (newSegment emptyDisk b c) rs).1) b c) ((b + j) % U64) =
          .ok ⟨(rs.getD j ⟨[], 0⟩).value, (b + j) % U64⟩) := by
  have hfe := newSegment_empty b c hb
  rw [hfe] at hok hsz
  have hps : entWidth * ([] : List (List Nat)).length ≤ c.maxIndexBytes := by simp
  have hcap := appendAll_ok_proto b c [] rs hb hps hok
  have htot := appendAll_total b c [] rs hb hcap
  simp only [List.nil_append, List.length_nil, Nat.zero_add] at htot
  have h1 : (appendAll protoMarshal (mkState b c []) rs).1 =
      mkState b c (payloads b 0 rs) := by rw [htot]
  have hqlen : (payloads b 0 rs).length = rs.length := payloads_length b 0 rs
  have hcap' : entWidth * (payloads b 0 rs).length ≤ c.maxIndexBytes := by
    rw [entWidth_eq] at hcap ⊢
    rw [hqlen]
    simp only [List.length_nil, Nat.zero_add] at hcap
    omega
  have hkU : (payloads b 0 rs).length < U64 := by
    rw [hqlen]
    rw [U32] at hk32
    rw [U64]
    omega
  have hro := reopen_mkState b c (payloads b 0 rs) hb hcap' hkU
  rw [h1] at hsz
  have hszq : (frames (payloads b 0 rs)).length < U64 := by
    simpa [mkState] using hsz
  refine ⟨?_, ?_, ?_, ?_, ?_⟩
  · intro d e h
    simp only [newSegment] at h ⊢
    simp only [h]
  · intro d ro pos h
    simp only [newSegment] at h ⊢
    simp only [h]
  · rw [hfe, h1]
    simp only [hro]
    by_cases h0 : (payloads b 0 rs).length = 0
    · rw [if_pos h0]
      simp only [mkState, h0, Nat.add_zero]
      rw [Nat.mod_eq_of_lt hb]
    · rw [if_neg h0]
      simp only [mkState]
      have hlt : (payloads b 0 rs).length - 1 < U32 := by
        rw [hqlen]
        rw [U32] at hk32 ⊢
        omega
      rw [Nat.mod_eq_of_lt hlt]
      congr 1
      omega
  · intro off
    rw [hfe, h1]
    simp only [hro]
    exact segmentRead_congr u _ _ rfl rfl rfl off
  · intro j hj
    rw [hfe, h1]
    simp only [hro]
    have hcongr := segmentRead_congr protoUnmarshal
      { mkState b c (payloads b 0 rs) with
          nextOffset := if (payloads b 0 rs).length = 0 then b
            else (b + ((payloads b 0 rs).length - 1) % U32 + 1) % U64 }
      (mkState b c (payloads b 0 rs)) rfl rfl rfl ((b + j) % U64)
    rw [hcongr]
    have hjq : j < (payloads b 0 rs).length := by rw [hqlen]; exact hj
    have hjU : j < U32 := by
      rw [U32] at hk32 ⊢
      omega
    rw [segmentRead_mkState protoUnmarshal b c (payloads b 0 rs) j hb hjq hjU hszq]
    rw [payloads_getD b 0 rs j hj, Nat.zero_add]
    exact protoUnmarshal_protoMarshal (rs.getD j ⟨[], 0⟩).value ((b + j) % U64)
      (Nat.mod_lt _ (by rw [U64]; omega))

/-- C2 amended witness: concrete evaluation at baseOffset 5 with one record; nextOffset is
preserved across close and reopen. -/
theorem c2_recovery_amended_witness :
    (newSegment (segmentCloseDisk (appendAll protoMarshal (newSegment emptyDisk 5 ⟨1000, 24⟩)
        [⟨[7], 0⟩]).1) 5 ⟨1000, 24⟩).nextOffset =
      (appendAll protoMarshal (newSegment emptyDisk 5 ⟨1000, 24⟩) [⟨[7], 0⟩]).1.nextOffset :=
  (c2_recovery_amended protoUnmarshal 5 ⟨1000, 24⟩ [⟨[7], 0⟩] (by decide) (by decide)
    (by decide) (by decide)).2.2.1

end Log
